import Mathlib

/-!
Verification of the PyBroMo core specification.

The repository sources available here are the project README and the user
notebooks, which only call into the `pybromo` package; the package's own
implementation (the `ParticlesSimulation`, `Particles`, `Box` and PSF classes
and their methods) is not part of the source tree.  Following the spec, the
missing core is modelled below: every definition whose doc comment starts with
`Modelled from the spec:` is a shallow embedding of the behaviour that the
specification document describes for the corresponding missing code.  Machine
floating point is modelled by exact rationals (and by real numbers where the
spec uses the exponential function).
-/

namespace PyBroMo

/-- Modelled from the spec: the missing `RandomStream` wrapper around a
seedable pseudorandom generator.  The snapshot value is the full generator
state; the concrete generator function is not fixed by the spec and is
instantiated here as a 32-bit linear congruential step. -/
structure RngState where
  val : ℕ
  deriving DecidableEq, Repr

/-- Modelled from the spec: one raw generator step, producing a 32-bit word
and the successor state. -/
def rngNext (s : RngState) : ℕ × RngState :=
  let v := (1664525 * s.val + 1013904223) % 4294967296
  (v, ⟨v⟩)

/-- Modelled from the spec: the value in `[0,1)` of the next uniform draw. -/
def uniformVal (s : RngState) : ℚ :=
  ((rngNext s).1 : ℚ) / 4294967296

/-- Modelled from the spec: `uniform(1)` — one uniform draw plus the new state. -/
def uniformDraw (s : RngState) : ℚ × RngState :=
  (uniformVal s, (rngNext s).2)

/-- Modelled from the spec: the value of the next standard-normal draw.  The
spec does not fix the sampler; only state-determinism matters for the claims,
so the draw is an arbitrary deterministic function of the state. -/
def normalVal (s : RngState) : ℚ :=
  ((rngNext s).1 : ℚ) / 2147483648 - 1

/-- Modelled from the spec: `normal(1)` — one normal draw plus the new state. -/
def normalDraw (s : RngState) : ℚ × RngState :=
  (normalVal s, (rngNext s).2)

/-- Modelled from the spec: the generator state after `k` raw draws. -/
def advanceRng (s : RngState) : ℕ → RngState
  | 0 => s
  | k + 1 => (rngNext (advanceRng s k)).2

/-- Modelled from the spec: `uniform(n) -> sequence of n reals in [0,1)`
(count first, then the stream state). -/
def uniform : ℕ → RngState → List ℚ × RngState
  | 0, s => ([], s)
  | n + 1, s =>
    let r := uniform n (rngNext s).2
    (uniformVal s :: r.1, r.2)

/-- Modelled from the spec: `normal(n) -> sequence of n reals`
(count first, then the stream state). -/
def normal : ℕ → RngState → List ℚ × RngState
  | 0, s => ([], s)
  | n + 1, s =>
    let r := normal n (rngNext s).2
    (normalVal s :: r.1, r.2)

theorem advanceRng_zero (s : RngState) : advanceRng s 0 = s := rfl

theorem advanceRng_succ (s : RngState) (k : ℕ) :
    advanceRng s (k + 1) = (rngNext (advanceRng s k)).2 := rfl

theorem uniform_zero (s : RngState) : uniform 0 s = ([], s) := rfl

theorem uniform_succ (n : ℕ) (s : RngState) :
    uniform (n + 1) s
      = (uniformVal s :: (uniform n (rngNext s).2).1, (uniform n (rngNext s).2).2) := rfl

theorem normal_zero (s : RngState) : normal 0 s = ([], s) := rfl

theorem normal_succ (n : ℕ) (s : RngState) :
    normal (n + 1) s
      = (normalVal s :: (normal n (rngNext s).2).1, (normal n (rngNext s).2).2) := rfl

theorem advanceRng_succ_left (s : RngState) (n : ℕ) :
    advanceRng (rngNext s).2 n = advanceRng s (n + 1) := by
  induction n with
  | zero => rw [advanceRng_zero, advanceRng_succ, advanceRng_zero]
  | succ n ih => rw [advanceRng_succ, ih, ← advanceRng_succ]

theorem advanceRng_add (s : RngState) (a b : ℕ) :
    advanceRng s (a + b) = advanceRng (advanceRng s a) b := by
  induction b with
  | zero => rfl
  | succ b ih => rw [← Nat.add_assoc, advanceRng_succ, ih, advanceRng_succ]

theorem uniform_state (n : ℕ) (s : RngState) :
    (uniform n s).2 = advanceRng s n := by
  induction n generalizing s with
  | zero => rfl
  | succ n ih =>
    rw [uniform_succ]
    exact (ih (rngNext s).2).trans (advanceRng_succ_left s n)

theorem normal_state (n : ℕ) (s : RngState) :
    (normal n s).2 = advanceRng s n := by
  induction n generalizing s with
  | zero => rfl
  | succ n ih =>
    rw [normal_succ]
    exact (ih (rngNext s).2).trans (advanceRng_succ_left s n)

theorem uniform_add (n m : ℕ) (s : RngState) :
    (uniform (n + m) s).1 = (uniform n s).1 ++ (uniform m (uniform n s).2).1 := by
  induction n generalizing s with
  | zero => rw [Nat.zero_add, uniform_zero]; rfl
  | succ n ih =>
    have h : n + 1 + m = (n + m) + 1 := by omega
    rw [h, uniform_succ, uniform_succ, ih]
    rfl

theorem normal_add (n m : ℕ) (s : RngState) :
    (normal (n + m) s).1 = (normal n s).1 ++ (normal m (normal n s).2).1 := by
  induction n generalizing s with
  | zero => rw [Nat.zero_add, normal_zero]; rfl
  | succ n ih =>
    have h : n + 1 + m = (n + m) + 1 := by omega
    rw [h, normal_succ, normal_succ, ih]
    rfl

/-- **C8.** Snapshot equality of two `RandomStream` states implies identical
future draw sequences of any requested lengths, for both the normal and the
uniform sampler; and restoring the snapshot taken after `n` draws
deterministically reproduces the draws that follow the snapshot point
(drawing `n + m` values in one go equals drawing `n`, snapshotting, and
drawing `m` more from the restored state). -/
theorem rng_snapshot_determinism (s1 s2 : RngState) (n m : ℕ) (h : s1 = s2) :
    normal n s1 = normal n s2 ∧
    uniform m s1 = uniform m s2 ∧
    (uniform (n + m) s1).1 = (uniform n s1).1 ++ (uniform m (uniform n s1).2).1 ∧
    (normal (n + m) s1).1 = (normal n s1).1 ++ (normal m (normal n s1).2).1 := by
  subst h
  exact ⟨rfl, rfl, uniform_add n m s1, normal_add n m s1⟩

/-- Witness for C8 at a concrete seed state and concrete draw counts. -/
theorem rng_snapshot_determinism_witness :
    (⟨7⟩ : RngState) = (⟨7⟩ : RngState) ∧
    (normal 2 ⟨7⟩ = normal 2 ⟨7⟩ ∧
     uniform 3 ⟨7⟩ = uniform 3 ⟨7⟩ ∧
     (uniform (2 + 3) ⟨7⟩).1 = (uniform 2 ⟨7⟩).1 ++ (uniform 3 (uniform 2 ⟨7⟩).2).1 ∧
     (normal (2 + 3) ⟨7⟩).1 = (normal 2 ⟨7⟩).1 ++ (normal 3 (normal 2 ⟨7⟩).2).1) :=
  ⟨rfl, rng_snapshot_determinism ⟨7⟩ ⟨7⟩ 2 3 rfl⟩

/-- Modelled from the spec: the `VolumeBoundary` reflection rule applied to one
coordinate after a diffusion step — if the coordinate exceeds the box extent on
that axis, it is reflected back across the boundary
(`new_coordinate = 2·limit − new_coordinate`), one reflection pass per axis per
step. -/
def reflect (lo hi x : ℚ) : ℚ :=
  if hi < x then 2 * hi - x
  else if x < lo then 2 * lo - x
  else x

/-- **C2.** For a coordinate strictly inside the boundary the reflection rule
is a no-op; for a coordinate exactly one reflection past the upper (resp.
lower) limit, the reflected coordinate equals `2·limit − coordinate` and the
result lies within the box. -/
theorem reflect_cases (lo hi x : ℚ) :
    (lo < x → x < hi → reflect lo hi x = x) ∧
    (hi < x → lo ≤ 2 * hi - x →
      reflect lo hi x = 2 * hi - x ∧ lo ≤ reflect lo hi x ∧ reflect lo hi x ≤ hi) ∧
    (x < lo → 2 * lo - x ≤ hi →
      reflect lo hi x = 2 * lo - x ∧ lo ≤ reflect lo hi x ∧ reflect lo hi x ≤ hi) := by
  unfold reflect
  refine ⟨?_, ?_, ?_⟩
  · intro h1 h2
    rw [if_neg (by linarith), if_neg (by linarith)]
  · intro h1 h2
    rw [if_pos h1]
    exact ⟨rfl, h2, by linarith⟩
  · intro h1 h2
    have hx : ¬ hi < x := by linarith
    rw [if_neg hx, if_pos h1]
    exact ⟨rfl, by linarith, h2⟩

/-- Witness for C2: inside the box `[-1, 1]` the point `1/2` is unchanged, and
the points `3/2` and `-3/2`, one reflection past a limit, reflect to `1/2` and
`-1/2` and land inside the box. -/
theorem reflect_cases_witness :
    reflect (-1) 1 (1/2) = 1/2 ∧
    (reflect (-1) 1 (3/2) = 2 * 1 - 3/2 ∧
     (-1 : ℚ) ≤ reflect (-1) 1 (3/2) ∧ reflect (-1) 1 (3/2) ≤ 1) ∧
    (reflect (-1) 1 (-3/2) = 2 * (-1) - (-3/2) ∧
     (-1 : ℚ) ≤ reflect (-1) 1 (-3/2) ∧ reflect (-1) 1 (-3/2) ≤ 1) :=
  ⟨(reflect_cases (-1) 1 (1/2)).1 (by norm_num) (by norm_num),
   (reflect_cases (-1) 1 (3/2)).2.1 (by norm_num) (by norm_num),
   (reflect_cases (-1) 1 (-3/2)).2.2 (by norm_num) (by norm_num)⟩

/-- Modelled from the spec: the missing `Particles` collection — an ordered
list of population groups, each group a `(particle count, diffusion
coefficient)` pair; groups partition the particle index range contiguously, so
a group is addressable as an index range. -/
structure Particles where
  groups : List (ℕ × ℚ)
  deriving DecidableEq, Repr

/-- Modelled from the spec: the `Particles(num_particles, D, ...)` constructor
used by the notebooks — a single initial population group. -/
def Particles.init (num_particles : ℕ) (D : ℚ) : Particles :=
  ⟨[(num_particles, D)]⟩

/-- Modelled from the spec: `Particles.add(num_particles, D)` — appends a new
population group after all existing particles. -/
def Particles.add (P : Particles) (num_particles : ℕ) (D : ℚ) : Particles :=
  ⟨P.groups ++ [(num_particles, D)]⟩

/-- Total number of particles across all population groups. -/
def Particles.totalCount (P : Particles) : ℕ :=
  (P.groups.map Prod.fst).sum

/-- First particle index of group `j` (the sum of the sizes of the groups
before it). -/
def Particles.groupStart (P : Particles) (j : ℕ) : ℕ :=
  ((P.groups.take j).map Prod.fst).sum

/-- Size of group `j`. -/
def Particles.groupCount (P : Particles) (j : ℕ) : ℕ :=
  (P.groups.getD j (0, 0)).1

/-- Half-open particle index range `[start, stop)` of group `j`. -/
def Particles.groupRange (P : Particles) (j : ℕ) : ℕ × ℕ :=
  (P.groupStart j, P.groupStart j + P.groupCount j)

theorem Particles.groupStart_succ (P : Particles) (j : ℕ) (h : j < P.groups.length) :
    P.groupStart (j + 1) = P.groupStart j + P.groupCount j := by
  unfold Particles.groupStart Particles.groupCount
  rw [List.take_succ, List.map_append, List.sum_append]
  congr 1
  rw [List.getD_eq_getElem?_getD, List.getElem?_eq_getElem h]
  simp

theorem Particles.groupStart_length (P : Particles) :
    P.groupStart P.groups.length = P.totalCount := by
  unfold Particles.groupStart Particles.totalCount
  rw [List.take_length]

/-- **C10.** `Particles.add` appends a new population group occupying exactly
the next contiguous block of particle indices after all existing particles:
the new group's index range is `[totalCount, totalCount + n)`, all previous
groups' ranges are unchanged, and the contiguous-partition invariant over
population groups (each group starts where the previous one stops, the first
group starts at 0 and the last stops at the total particle count) holds for
the extended collection. -/
theorem particles_add_contiguous (P : Particles) (n : ℕ) (D : ℚ) :
    (P.add n D).groupRange P.groups.length = (P.totalCount, P.totalCount + n) ∧
    (∀ j, j < P.groups.length → (P.add n D).groupRange j = P.groupRange j) ∧
    (∀ j, j < (P.add n D).groups.length →
      (P.add n D).groupStart (j + 1)
        = (P.add n D).groupStart j + (P.add n D).groupCount j) ∧
    (P.add n D).groupStart 0 = 0 ∧
    (P.add n D).groupStart (P.add n D).groups.length = (P.add n D).totalCount := by
  refine ⟨?_, ?_, ?_, rfl, Particles.groupStart_length _⟩
  · unfold Particles.add Particles.groupRange Particles.groupStart
      Particles.groupCount Particles.totalCount
    simp
  · intro j hj
    unfold Particles.add Particles.groupRange Particles.groupStart Particles.groupCount
    simp only
    rw [List.take_append_of_le_length (le_of_lt hj),
        List.getD_eq_getElem?_getD, List.getD_eq_getElem?_getD,
        List.getElem?_append_left hj]
  · intro j hj
    exact Particles.groupStart_succ _ j hj

/-- Witness for C10 on the notebook configuration: constructing 20 particles
and adding 15 yields population groups addressable as the contiguous index
ranges `[0, 20)` and `[20, 35)`. -/
theorem particles_add_contiguous_witness :
    0 < (Particles.init 20 1).groups.length ∧
    ((Particles.init 20 1).add 15 2).groupRange 0 = (Particles.init 20 1).groupRange 0 ∧
    ((Particles.init 20 1).add 15 2).groupRange (Particles.init 20 1).groups.length
      = ((Particles.init 20 1).totalCount, (Particles.init 20 1).totalCount + 15) ∧
    ((Particles.init 20 1).add 15 2).groupRange 0 = (0, 20) ∧
    ((Particles.init 20 1).add 15 2).groupRange 1 = (20, 35) :=
  ⟨by decide,
   (particles_add_contiguous (Particles.init 20 1) 15 2).2.1 0 (by decide),
   (particles_add_contiguous (Particles.init 20 1) 15 2).1,
   by decide, by decide⟩

/-- A 3-D position. -/
structure Vec3 where
  x : ℚ
  y : ℚ
  z : ℚ
  deriving DecidableEq, Repr

/-- Modelled from the spec: the missing `Box` class
(`Box(x1, x2, y1, y2, z1, z2)`) — the axis-aligned simulation volume. -/
structure Box where
  x1 : ℚ
  x2 : ℚ
  y1 : ℚ
  y2 : ℚ
  z1 : ℚ
  z2 : ℚ
  deriving DecidableEq, Repr

/-- Modelled from the spec: the missing `ParticlesSimulation` configuration
(`ParticlesSimulation(t_step, t_max, particles, box, psf)`).  `sigma i` models
the per-particle Wiener step scale `sqrt(2·D·Δt)` (irrational in general, so
carried as a configuration value); `r0s` are the initial positions sampled at
setup; `rs0` is the random stream state at the start of the diffusion run. -/
structure ParticlesSimulation where
  t_step : ℚ
  t_max : ℚ
  particles : Particles
  box : Box
  psf : Vec3 → ℚ
  sigma : ℕ → ℚ
  r0s : List Vec3
  rs0 : RngState

/-- Number of particles in the simulation. -/
def nParticles (S : ParticlesSimulation) : ℕ := S.r0s.length

/-- Modelled from the spec: the number of time samples,
`n_samples = floor(t_max / t_step)`, computed directly on the rational
representation (for `t_step > 0` and `t_max > 0` this is exactly the floor of
the quotient). -/
def n_samples (S : ParticlesSimulation) : ℕ :=
  ((S.t_max.num * (S.t_step.den : ℤ)) / (S.t_step.num * (S.t_max.den : ℤ))).toNat

/-- Modelled from the spec: the error taxonomy (`ConfigurationError`,
`StorageError`, `NumericalError`). -/
inductive SimError where
  | configurationError
  | storageError
  | numericalError
  deriving DecidableEq, Repr

/-- Modelled from the spec: eager validation of the diffusion configuration —
`Δt > 0`, duration `> 0`, every diffusion coefficient `≥ 0`, and positive box
extent on every axis. -/
def validDiffusion (S : ParticlesSimulation) : Prop :=
  0 < S.t_step ∧ 0 < S.t_max ∧ (∀ g ∈ S.particles.groups, 0 ≤ g.2) ∧
  S.box.x1 < S.box.x2 ∧ S.box.y1 < S.box.y2 ∧ S.box.z1 < S.box.z2

instance (S : ParticlesSimulation) : Decidable (validDiffusion S) := by
  unfold validDiffusion
  infer_instance

/-- Modelled from the spec: one diffusion step of one particle — per spatial
axis, `new = old + sqrt(2·D·Δt)·ξ` with `ξ` a standard-normal draw, followed by
one reflection pass at the box boundary; draws are consumed in axis order
`x, y, z`. -/
def stepVec (S : ParticlesSimulation) (i : ℕ) (p : Vec3) (s : RngState) :
    Vec3 × RngState :=
  let gx := normalDraw s
  let gy := normalDraw gx.2
  let gz := normalDraw gy.2
  (⟨reflect S.box.x1 S.box.x2 (p.x + S.sigma i * gx.1),
    reflect S.box.y1 S.box.y2 (p.y + S.sigma i * gy.1),
    reflect S.box.z1 S.box.z2 (p.z + S.sigma i * gz.1)⟩, gz.2)

/-- Modelled from the spec: one diffusion step of a list of particles starting
at particle index `i`, threading the random stream through the particles in
index order (a fixed global draw order, independent of chunking). -/
def stepList (S : ParticlesSimulation) : List Vec3 → ℕ → RngState → List Vec3 × RngState
  | [], _, s => ([], s)
  | p :: ps, i, s =>
    let hd := stepVec S i p s
    let rest := stepList S ps (i + 1) hd.2
    (hd.1 :: rest.1, rest.2)

/-- The state threaded by the integrator between chunks: the particles'
current positions plus the random generator's own state — nothing else. -/
abbrev SimState := List Vec3 × RngState

/-- One global time step for all particles. -/
def stepAll (S : ParticlesSimulation) (st : SimState) : SimState :=
  stepList S st.1 0 st.2

/-- One output sample: the positions of all particles at one time sample
(one time slice of a `TrajectoryChunk`) together with the aligned emission
values (the same time slice of the corresponding `EmissionChunk`), obtained by
evaluating the `ExcitationProfile` at every particle position. -/
structure Row where
  pos : List Vec3
  em : List ℚ
  deriving DecidableEq, Repr

/-- Build the output sample for a state. -/
def mkRow (S : ParticlesSimulation) (st : SimState) : Row :=
  ⟨st.1, st.1.map S.psf⟩

/-- Modelled from the spec: produce one chunk of `len` consecutive samples
from a starting state, returning the rows and the carried-forward state. -/
def runChunk (S : ParticlesSimulation) : ℕ → SimState → List Row × SimState
  | 0, st => ([], st)
  | n + 1, st =>
    let st2 := stepAll S st
    let rest := runChunk S n st2
    (mkRow S st2 :: rest.1, rest.2)

/-- Modelled from the spec: the chunked integrator loop — produce chunks of at
most `c` samples until the remaining sample count `n` is exhausted, threading
only the carried-forward positions and the random stream state between chunks.
The first argument is structural fuel (any value `≥ n` gives the same result
when `0 < c`). -/
def runChunked (S : ParticlesSimulation) (c : ℕ) :
    ℕ → ℕ → SimState → List (List Row) × SimState
  | 0, _, st => ([], st)
  | fuel + 1, n, st =>
    if n = 0 then ([], st)
    else
      let len := min c n
      let ck := runChunk S len st
      let rest := runChunked S c fuel (n - len) ck.2
      (ck.1 :: rest.1, rest.2)

/-- The integrator's initial state. -/
def initState (S : ParticlesSimulation) : SimState := (S.r0s, S.rs0)

/-- The chunk sequence produced by a diffusion run with chunk size
`chunksize`. -/
def outChunks (S : ParticlesSimulation) (chunksize : ℕ) : List (List Row) :=
  (runChunked S chunksize (n_samples S) (n_samples S) (initState S)).1

/-- Modelled from the spec: `ParticlesSimulation.simulate_diffusion(chunksize)`
— validate the configuration eagerly, then produce the full
trajectory/emission chunk sequence; on invalid configuration fail with
`ConfigurationError` before any simulation work, producing no output. -/
def simulate_diffusion (S : ParticlesSimulation) (chunksize : ℕ) :
    Except SimError (List (List Row)) :=
  if validDiffusion S then .ok (outChunks S chunksize)
  else .error .configurationError

/-- The unchunked reference trajectory: the state after `t` global steps. -/
def trajState (S : ParticlesSimulation) : ℕ → SimState
  | 0 => initState S
  | t + 1 => stepAll S (trajState S t)

/-- The output sample at global time step `t ≥ 1`. -/
def rowOf (S : ParticlesSimulation) (t : ℕ) : Row :=
  mkRow S (trajState S t)

theorem stepList_nil (S : ParticlesSimulation) (i : ℕ) (s : RngState) :
    stepList S [] i s = ([], s) := rfl

theorem stepList_cons (S : ParticlesSimulation) (p : Vec3) (ps : List Vec3)
    (i : ℕ) (s : RngState) :
    stepList S (p :: ps) i s
      = ((stepVec S i p s).1 :: (stepList S ps (i + 1) (stepVec S i p s).2).1,
         (stepList S ps (i + 1) (stepVec S i p s).2).2) := rfl

theorem runChunk_zero (S : ParticlesSimulation) (st : SimState) :
    runChunk S 0 st = ([], st) := rfl

theorem runChunk_succ (S : ParticlesSimulation) (n : ℕ) (st : SimState) :
    runChunk S (n + 1) st
      = (mkRow S (stepAll S st) :: (runChunk S n (stepAll S st)).1,
         (runChunk S n (stepAll S st)).2) := rfl

theorem runChunked_zero (S : ParticlesSimulation) (c n : ℕ) (st : SimState) :
    runChunked S c 0 n st = ([], st) := rfl

theorem runChunked_succ (S : ParticlesSimulation) (c fuel n : ℕ) (st : SimState) :
    runChunked S c (fuel + 1) n st
      = if n = 0 then ([], st)
        else
          ((runChunk S (min c n) st).1
             :: (runChunked S c fuel (n - min c n) (runChunk S (min c n) st).2).1,
           (runChunked S c fuel (n - min c n) (runChunk S (min c n) st).2).2) := rfl

theorem trajState_zero (S : ParticlesSimulation) : trajState S 0 = initState S := rfl

theorem trajState_succ (S : ParticlesSimulation) (t : ℕ) :
    trajState S (t + 1) = stepAll S (trajState S t) := rfl

theorem runChunk_add (S : ParticlesSimulation) (a b : ℕ) (st : SimState) :
    runChunk S (a + b) st
      = ((runChunk S a st).1 ++ (runChunk S b (runChunk S a st).2).1,
         (runChunk S b (runChunk S a st).2).2) := by
  induction a generalizing st with
  | zero => rw [Nat.zero_add, runChunk_zero]; rfl
  | succ a ih =>
    have h : a + 1 + b = (a + b) + 1 := by omega
    rw [h, runChunk_succ, runChunk_succ, ih, List.cons_append]

theorem runChunked_join (S : ParticlesSimulation) (c fuel n : ℕ) (st : SimState)
    (hc : 0 < c) (hfuel : n ≤ fuel) :
    (runChunked S c fuel n st).1.flatten = (runChunk S n st).1 ∧
    (runChunked S c fuel n st).2 = (runChunk S n st).2 := by
  induction fuel generalizing n st with
  | zero =>
    have hn : n = 0 := by omega
    subst hn
    exact ⟨rfl, rfl⟩
  | succ fuel ih =>
    by_cases hn : n = 0
    · subst hn
      rw [runChunked_succ, if_pos rfl]
      exact ⟨rfl, rfl⟩
    · rw [runChunked_succ, if_neg hn]
      have hlen1 : 1 ≤ min c n := by omega
      have hrec : n - min c n ≤ fuel := by omega
      have hmin : min c n + (n - min c n) = n := by omega
      obtain ⟨ih1, ih2⟩ := ih (n - min c n) (runChunk S (min c n) st).2 hrec
      have hsplit := runChunk_add S (min c n) (n - min c n) st
      rw [hmin] at hsplit
      constructor
      · rw [hsplit]
        simp only [List.flatten_cons, ih1]
      · rw [hsplit]
        simp only [ih2]

/-- **C1.** For every configuration and any two (positive) chunk sizes, the
diffusion run produces bit-identical trajectory/emission sample sequences:
the concatenation of the produced chunks is independent of the chunk size
(chunking is memory granularity only, the random draws are consumed in a fixed
global order), and two runs of the same configuration produce identical
output. -/
theorem simulate_diffusion_chunk_invariant (S T : ParticlesSimulation)
    (c1 c2 c : ℕ) (h1 : 0 < c1) (h2 : 0 < c2) (hST : S = T) :
    (simulate_diffusion S c1).map List.flatten
      = (simulate_diffusion S c2).map List.flatten ∧
    simulate_diffusion S c = simulate_diffusion T c := by
  subst hST
  refine ⟨?_, rfl⟩
  unfold simulate_diffusion
  by_cases hv : validDiffusion S
  · rw [if_pos hv, if_pos hv]
    simp only [Except.map]
    unfold outChunks
    rw [(runChunked_join S c1 (n_samples S) (n_samples S) (initState S) h1 le_rfl).1,
        (runChunked_join S c2 (n_samples S) (n_samples S) (initState S) h2 le_rfl).1]
  · rw [if_neg hv, if_neg hv]

/-- Concrete configuration used by the witnesses: one particle, three time
samples, a constant excitation profile. -/
def exSim : ParticlesSimulation where
  t_step := 1
  t_max := 3
  particles := ⟨[(1, 1)]⟩
  box := ⟨-5, 5, -5, 5, -5, 5⟩
  psf := fun _ => 1
  sigma := fun _ => 1
  r0s := [⟨0, 0, 0⟩]
  rs0 := ⟨1⟩

/-- Witness for C1: the concrete run of `exSim` with chunk sizes 2 and 3
(and run-to-run determinism at chunk size 2). -/
theorem simulate_diffusion_chunk_invariant_witness :
    0 < 2 ∧ 0 < 3 ∧ exSim = exSim ∧
    ((simulate_diffusion exSim 2).map List.flatten
       = (simulate_diffusion exSim 3).map List.flatten ∧
     simulate_diffusion exSim 2 = simulate_diffusion exSim 2) :=
  ⟨by decide, by decide, rfl,
   simulate_diffusion_chunk_invariant exSim exSim 2 3 2
     (by decide) (by decide) rfl⟩

/-- **C6.** The diffusion integrator fails with `ConfigurationError` exactly
when `Δt ≤ 0`, or the duration is `≤ 0`, or some diffusion coefficient is
negative, or the box has zero or negative extent on some axis; otherwise it
succeeds with the full chunk output (the error is detected eagerly, before any
chunk is produced: the result is either the error and no output, or the
complete output). -/
theorem simulate_diffusion_validation (S : ParticlesSimulation) (c : ℕ) :
    (simulate_diffusion S c = .error .configurationError ↔
      (S.t_step ≤ 0 ∨ S.t_max ≤ 0 ∨ (∃ g ∈ S.particles.groups, g.2 < 0) ∨
       S.box.x2 ≤ S.box.x1 ∨ S.box.y2 ≤ S.box.y1 ∨ S.box.z2 ≤ S.box.z1)) ∧
    (simulate_diffusion S c = .ok (outChunks S c) ↔
      ¬ (S.t_step ≤ 0 ∨ S.t_max ≤ 0 ∨ (∃ g ∈ S.particles.groups, g.2 < 0) ∨
         S.box.x2 ≤ S.box.x1 ∨ S.box.y2 ≤ S.box.y1 ∨ S.box.z2 ≤ S.box.z1)) := by
  have hiff : ¬ validDiffusion S ↔
      (S.t_step ≤ 0 ∨ S.t_max ≤ 0 ∨ (∃ g ∈ S.particles.groups, g.2 < 0) ∨
       S.box.x2 ≤ S.box.x1 ∨ S.box.y2 ≤ S.box.y1 ∨ S.box.z2 ≤ S.box.z1) := by
    constructor
    · intro h
      by_contra hc
      push_neg at hc
      obtain ⟨h1, h2, h3, h4, h5, h6⟩ := hc
      exact h ⟨h1, h2, h3, h4, h5, h6⟩
    · intro hd hv
      obtain ⟨h1, h2, h3, h4, h5, h6⟩ := hv
      rcases hd with h | h | ⟨g, hg, h⟩ | h | h | h
      · linarith
      · linarith
      · exact absurd (h3 g hg) (not_le.mpr h)
      · linarith
      · linarith
      · linarith
  have herr : simulate_diffusion S c = .error .configurationError ↔
      ¬ validDiffusion S := by
    unfold simulate_diffusion
    by_cases hv : validDiffusion S
    · simp [hv]
    · simp [hv]
  have hok : simulate_diffusion S c = .ok (outChunks S c) ↔ validDiffusion S := by
    unfold simulate_diffusion
    by_cases hv : validDiffusion S
    · simp [hv]
    · simp [hv]
  refine ⟨herr.trans hiff, hok.trans ?_⟩
  constructor
  · intro hv hd
    exact (hiff.mpr hd) hv
  · intro hnd
    by_contra hnv
    exact hnd (hiff.mp hnv)

theorem stepVec_state (S : ParticlesSimulation) (i : ℕ) (p : Vec3) (s : RngState) :
    (stepVec S i p s).2 = advanceRng s 3 := by
  rw [show (3 : ℕ) = 2 + 1 from rfl, advanceRng_succ,
      show (2 : ℕ) = 1 + 1 from rfl, advanceRng_succ,
      show (1 : ℕ) = 0 + 1 from rfl, advanceRng_succ, advanceRng_zero]
  rfl

theorem stepList_cons_eq (S : ParticlesSimulation) (p : Vec3) (ps : List Vec3)
    (i : ℕ) (s : RngState) :
    stepList S (p :: ps) i s
      = (let hd := stepVec S i p s
         let rest := stepList S ps (i + 1) hd.2
         (hd.1 :: rest.1, rest.2)) := rfl

theorem stepList_cons_fst (S : ParticlesSimulation) (p : Vec3) (ps : List Vec3)
    (i : ℕ) (s : RngState) :
    (stepList S (p :: ps) i s).1
      = (stepVec S i p s).1 :: (stepList S ps (i + 1) (stepVec S i p s).2).1 :=
  (congrArg Prod.fst (stepList_cons_eq S p ps i s)).trans rfl

theorem stepList_cons_snd (S : ParticlesSimulation) (p : Vec3) (ps : List Vec3)
    (i : ℕ) (s : RngState) :
    (stepList S (p :: ps) i s).2
      = (stepList S ps (i + 1) (stepVec S i p s).2).2 :=
  (congrArg Prod.snd (stepList_cons_eq S p ps i s)).trans rfl

theorem stepList_len (S : ParticlesSimulation) (ps : List Vec3) (i : ℕ) (s : RngState) :
    (stepList S ps i s).1.length = ps.length := by
  induction ps generalizing i s with
  | nil => rfl
  | cons p ps ih =>
    rw [stepList_cons_fst, List.length_cons, List.length_cons, ih]

theorem stepList_state (S : ParticlesSimulation) (ps : List Vec3) (i : ℕ) (s : RngState) :
    (stepList S ps i s).2 = advanceRng s (3 * ps.length) := by
  induction ps generalizing i s with
  | nil => rfl
  | cons p ps ih =>
    rw [stepList_cons_snd, ih, stepVec_state, ← advanceRng_add]
    congr 1
    rw [List.length_cons]
    ring

theorem stepAll_fst_len (S : ParticlesSimulation) (st : SimState) :
    (stepAll S st).1.length = st.1.length :=
  stepList_len S st.1 0 st.2

theorem stepAll_snd (S : ParticlesSimulation) (st : SimState) :
    (stepAll S st).2 = advanceRng st.2 (3 * st.1.length) :=
  stepList_state S st.1 0 st.2

theorem trajState_fst_len (S : ParticlesSimulation) (t : ℕ) :
    (trajState S t).1.length = nParticles S := by
  induction t with
  | zero => rfl
  | succ t ih => rw [trajState_succ, stepAll_fst_len, ih]

theorem trajState_snd (S : ParticlesSimulation) (t : ℕ) :
    (trajState S t).2 = advanceRng S.rs0 (3 * nParticles S * t) := by
  induction t with
  | zero => rfl
  | succ t ih =>
    rw [trajState_succ, stepAll_snd, trajState_fst_len, ih, ← advanceRng_add]
    congr 1

theorem runChunk_succ_fst (S : ParticlesSimulation) (n : ℕ) (st : SimState) :
    (runChunk S (n + 1) st).1
      = mkRow S (stepAll S st) :: (runChunk S n (stepAll S st)).1 :=
  (congrArg Prod.fst (runChunk_succ S n st)).trans rfl

theorem runChunk_succ_snd (S : ParticlesSimulation) (n : ℕ) (st : SimState) :
    (runChunk S (n + 1) st).2 = (runChunk S n (stepAll S st)).2 :=
  (congrArg Prod.snd (runChunk_succ S n st)).trans rfl

theorem runChunk_rows (S : ParticlesSimulation) (len m : ℕ) :
    (runChunk S len (trajState S m)).1
      = (List.range len).map (fun i => rowOf S (m + 1 + i)) ∧
    (runChunk S len (trajState S m)).2 = trajState S (m + len) := by
  induction len generalizing m with
  | zero => exact ⟨rfl, rfl⟩
  | succ len ih =>
    have hst : stepAll S (trajState S m) = trajState S (m + 1) :=
      (trajState_succ S m).symm
    constructor
    · rw [runChunk_succ_fst, hst, (ih (m + 1)).1,
          List.range_succ_eq_map, List.map_cons, List.map_map]
      congr 1
      apply List.map_congr_left
      intro i _
      simp only [Function.comp_apply]
      congr 1
      omega
    · rw [runChunk_succ_snd, hst, (ih (m + 1)).2]
      congr 1
      omega

theorem runChunked_none (S : ParticlesSimulation) (c fuel : ℕ) (st : SimState) :
    (runChunked S c fuel 0 st).1 = [] := by
  cases fuel with
  | zero => rfl
  | succ fuel => rw [runChunked_succ, if_pos rfl]

theorem runChunked_fuel_irrel (S : ParticlesSimulation) (c : ℕ) (hc : 0 < c) :
    ∀ f1 f2 n st, n ≤ f1 → n ≤ f2 →
      runChunked S c f1 n st = runChunked S c f2 n st := by
  intro f1
  induction f1 with
  | zero =>
    intro f2 n st h1 h2
    have hn : n = 0 := by omega
    subst hn
    cases f2 with
    | zero => rfl
    | succ f2 => rw [runChunked_zero, runChunked_succ, if_pos rfl]
  | succ f1 ih =>
    intro f2 n st h1 h2
    by_cases hn : n = 0
    · subst hn
      cases f2 with
      | zero => rw [runChunked_zero, runChunked_succ, if_pos rfl]
      | succ f2 => rw [runChunked_succ, runChunked_succ, if_pos rfl, if_pos rfl]
    · cases f2 with
      | zero => omega
      | succ f2 =>
        rw [runChunked_succ, runChunked_succ, if_neg hn, if_neg hn]
        have hr1 : n - min c n ≤ f1 := by omega
        have hr2 : n - min c n ≤ f2 := by omega
        rw [ih f2 (n - min c n) (runChunk S (min c n) st).2 hr1 hr2]

theorem runChunked_get (S : ParticlesSimulation) (c : ℕ) (hc : 0 < c) :
    ∀ k fuel n m, n ≤ fuel →
      k + 1 < (runChunked S c fuel n (trajState S m)).1.length →
      (k + 1) * c < n ∧
      (runChunked S c fuel n (trajState S m)).1.getD k []
        = (runChunk S c (trajState S (m + k * c))).1 ∧
      (runChunked S c fuel n (trajState S m)).1.drop (k + 1)
        = (runChunked S c (n - (k + 1) * c) (n - (k + 1) * c)
            (trajState S (m + (k + 1) * c))).1 := by
  intro k
  induction k with
  | zero =>
    intro fuel n m hfuel hk
    cases fuel with
    | zero =>
      rw [runChunked_zero] at hk
      simp at hk
    | succ f =>
      by_cases hn : n = 0
      · rw [runChunked_succ, if_pos hn] at hk
        simp at hk
      · rw [runChunked_succ, if_neg hn] at hk
        simp only [List.length_cons] at hk
        have hcn : c < n := by
          by_contra hcn
          push_neg at hcn
          have h0 : n - min c n = 0 := by omega
          rw [h0, runChunked_none] at hk
          simp at hk
        have hmin : min c n = c := by omega
        rw [runChunked_succ, if_neg hn, hmin]
        have hck2 : (runChunk S c (trajState S m)).2 = trajState S (m + c) :=
          (runChunk_rows S c m).2
        refine ⟨by omega, ?_, ?_⟩
        · rw [List.getD_cons_zero]
          have e0 : m + 0 * c = m := by omega
          rw [e0]
        · rw [List.drop_succ_cons, List.drop_zero, hck2]
          have hf : n - c ≤ f := by omega
          rw [runChunked_fuel_irrel S c hc f (n - c) (n - c)
                (trajState S (m + c)) hf le_rfl]
          have e1 : n - c = n - (0 + 1) * c := by omega
          have e2 : m + c = m + (0 + 1) * c := by omega
          rw [e1, e2]
  | succ k ihk =>
    intro fuel n m hfuel hk
    cases fuel with
    | zero =>
      rw [runChunked_zero] at hk
      simp at hk
    | succ f =>
      by_cases hn : n = 0
      · rw [runChunked_succ, if_pos hn] at hk
        simp at hk
      · rw [runChunked_succ, if_neg hn] at hk
        simp only [List.length_cons] at hk
        have hcn : c < n := by
          by_contra hcn
          push_neg at hcn
          have h0 : n - min c n = 0 := by omega
          rw [h0, runChunked_none] at hk
          simp at hk
        have hmin : min c n = c := by omega
        have hck2 : (runChunk S c (trajState S m)).2 = trajState S (m + c) :=
          (runChunk_rows S c m).2
        rw [hmin, hck2] at hk
        have hf : n - c ≤ f := by omega
        have hkrec : k + 1 < (runChunked S c f (n - c) (trajState S (m + c))).1.length := by
          omega
        obtain ⟨ha, hb, hd⟩ := ihk f (n - c) (m + c) hf hkrec
        have hmul : (k + 1 + 1) * c = (k + 1) * c + c := by ring
        rw [runChunked_succ, if_neg hn, hmin, hck2]
        refine ⟨by omega, ?_, ?_⟩
        · rw [List.getD_cons_succ, hb]
          have e3 : m + c + k * c = m + (k + 1) * c := by ring
          rw [e3]
        · rw [List.drop_succ_cons, hd]
          have e1 : n - c - (k + 1) * c = n - (k + 1 + 1) * c := by omega
          have e2 : m + c + (k + 1) * c = m + (k + 1 + 1) * c := by ring
          have hfi := runChunked_fuel_irrel S c hc (n - c - (k + 1) * c)
            (n - (k + 1 + 1) * c) (n - c - (k + 1) * c)
            (trajState S (m + c + (k + 1) * c)) le_rfl (by omega)
          rw [hfi, e1, e2]

theorem map_range_getLast {α : Type} (f : ℕ → α) (len : ℕ) (h : 0 < len) :
    ((List.range len).map f).getLast? = some (f (len - 1)) := by
  rw [List.getLast?_eq_getElem?, List.length_map, List.length_range,
      List.getElem?_map, List.getElem?_range (by omega)]
  rfl

theorem map_range_head {α : Type} (f : ℕ → α) (len : ℕ) (h : 0 < len) :
    ((List.range len).map f).head? = some (f 0) := by
  rw [List.head?_eq_getElem?, List.getElem?_map, List.getElem?_range h]
  rfl

/-- **C5.** For consecutive chunks produced by the trajectory integrator, the
last sample of chunk `k` is the trajectory state at the chunk boundary and the
first sample of chunk `k+1` is obtained by applying one integration step to
exactly that carried-forward state; moreover the whole remainder of the run
after chunk `k` is a function of only the carried-forward particle positions
and the random generator state at the boundary — the only state threaded
between chunks. -/
theorem chunk_continuity (S : ParticlesSimulation) (c k : ℕ) (hc : 0 < c)
    (hk : k + 1 < (outChunks S c).length) :
    ∃ plast : Row,
      ((outChunks S c).getD k []).getLast? = some plast ∧
      plast.pos = (trajState S ((k + 1) * c)).1 ∧
      ((outChunks S c).getD (k + 1) []).head?
        = some (mkRow S (stepAll S
            (plast.pos, advanceRng S.rs0 (3 * nParticles S * ((k + 1) * c))))) ∧
      (outChunks S c).drop (k + 1)
        = (runChunked S c (n_samples S - (k + 1) * c) (n_samples S - (k + 1) * c)
            (plast.pos, advanceRng S.rs0 (3 * nParticles S * ((k + 1) * c)))).1 := by
  have h0 : initState S = trajState S 0 := rfl
  unfold outChunks at hk ⊢
  rw [h0] at hk ⊢
  obtain ⟨ha, hb, hd⟩ :=
    runChunked_get S c hc k (n_samples S) (n_samples S) 0 le_rfl hk
  have z1 : 0 + k * c = k * c := by omega
  have z2 : 0 + (k + 1) * c = (k + 1) * c := by omega
  rw [z1] at hb
  rw [z2] at hd
  have hpp : (rowOf S ((k + 1) * c)).pos = (trajState S ((k + 1) * c)).1 := rfl
  have hpair : ((rowOf S ((k + 1) * c)).pos,
      advanceRng S.rs0 (3 * nParticles S * ((k + 1) * c)))
      = trajState S ((k + 1) * c) := by
    rw [hpp, ← trajState_snd S ((k + 1) * c)]
  have hmulc : (k + 1) * c = k * c + c := by ring
  have e4 : k * c + 1 + (c - 1) = (k + 1) * c := by omega
  refine ⟨rowOf S ((k + 1) * c), ?_, hpp, ?_, ?_⟩
  · rw [hb, (runChunk_rows S c (k * c)).1, map_range_getLast _ c hc, e4]
  · -- first sample of chunk k+1
    have hn' : 0 < n_samples S - (k + 1) * c := by omega
    obtain ⟨n2, hn2⟩ : ∃ m, n_samples S - (k + 1) * c = m + 1 :=
      ⟨_, (Nat.succ_pred_eq_of_pos hn').symm⟩
    have hgetel :
        (runChunked S c (n_samples S) (n_samples S) (trajState S 0)).1[k + 1]?
          = some ((runChunked S c (n_samples S) (n_samples S)
              (trajState S 0)).1.getD (k + 1) []) := by
      rw [List.getD_eq_getElem?_getD, List.getElem?_eq_getElem hk]
      rfl
    have hdrop :
        ((runChunked S c (n_samples S) (n_samples S) (trajState S 0)).1.drop
            (k + 1)).head?
          = (runChunked S c (n_samples S) (n_samples S)
              (trajState S 0)).1[k + 1]? :=
      List.head?_drop _ _
    rw [hd, hn2, runChunked_succ, if_neg (Nat.succ_ne_zero n2)] at hdrop
    rw [hgetel] at hdrop
    have hminpos : 0 < min c (n2 + 1) := by omega
    have hfirst :
        (runChunk S (min c (n2 + 1)) (trajState S ((k + 1) * c))).1
          = (List.range (min c (n2 + 1))).map
              (fun i => rowOf S ((k + 1) * c + 1 + i)) :=
      (runChunk_rows S (min c (n2 + 1)) ((k + 1) * c)).1
    have hchunk :
        (runChunked S c (n_samples S) (n_samples S)
            (trajState S 0)).1.getD (k + 1) []
          = (List.range (min c (n2 + 1))).map
              (fun i => rowOf S ((k + 1) * c + 1 + i)) := by
      have := hdrop.symm
      rw [List.head?_cons] at this
      exact (Option.some.inj this).trans hfirst
    rw [hchunk, map_range_head _ _ hminpos]
    rw [hpair]
    have : rowOf S ((k + 1) * c + 1 + 0) = mkRow S (stepAll S (trajState S ((k + 1) * c))) := by
      have e5 : (k + 1) * c + 1 + 0 = (k + 1) * c + 1 := by omega
      rw [e5]
      unfold rowOf
      rw [trajState_succ]
    rw [this]
  · rw [hpair]
    exact hd

/-- Witness for C5 at the concrete configuration `exSim` with chunk size 1 and
`k = 0`. -/
theorem chunk_continuity_witness :
    0 < 1 ∧ 0 + 1 < (outChunks exSim 1).length ∧
    (∃ plast : Row,
      ((outChunks exSim 1).getD 0 []).getLast? = some plast ∧
      plast.pos = (trajState exSim ((0 + 1) * 1)).1 ∧
      ((outChunks exSim 1).getD (0 + 1) []).head?
        = some (mkRow exSim (stepAll exSim
            (plast.pos, advanceRng exSim.rs0 (3 * nParticles exSim * ((0 + 1) * 1))))) ∧
      (outChunks exSim 1).drop (0 + 1)
        = (runChunked exSim 1 (n_samples exSim - (0 + 1) * 1)
            (n_samples exSim - (0 + 1) * 1)
            (plast.pos, advanceRng exSim.rs0 (3 * nParticles exSim * ((0 + 1) * 1)))).1) :=
  ⟨by decide, by decide, chunk_continuity exSim 1 0 (by decide) (by decide)⟩

/-- Modelled from the spec: the emission data a timestamp run consumes — the
number of particles, the number of samples, the sampling step `Δt`, the
persisted per-particle per-sample normalized emission values, and the random
stream state at the start of the timestamp pass. -/
structure EmissionData where
  np : ℕ
  ns : ℕ
  t_step : ℚ
  em : ℕ → ℕ → ℚ
  rs0 : RngState

/-- Modelled from the spec: the max emission rate of particle `p` under the
population groups `pairs` (a list of `(max rate, start, stop)` entries,
each covering the half-open index range `[start, stop)`); a particle in no
group has rate 0. -/
def rateOf (pairs : List (ℚ × ℕ × ℕ)) (p : ℕ) : ℚ :=
  (pairs.map (fun rse => if rse.2.1 ≤ p ∧ p < rse.2.2 then rse.1 else 0)).sum

/-- Modelled from the spec: the thinning acceptance test for particle `p` at
sample `i` — accept when the uniform draw is below
`max_rate · emission · Δt`. -/
def acceptsP (E : EmissionData) (pairs : List (ℚ × ℕ × ℕ)) (i p : ℕ)
    (s : RngState) : Bool :=
  decide (uniformVal s < rateOf pairs p * E.em p i * E.t_step)

/-- Modelled from the spec: the background acceptance test — accept when the
(separate) uniform draw is below `R_bg · Δt`. -/
def acceptsBG (E : EmissionData) (bg : ℚ) (s : RngState) : Bool :=
  decide (uniformVal s < bg * E.t_step)

/-- Modelled from the spec: the per-sample thinning pass over the listed
particles in index order, one uniform draw per particle, threading the
stream. -/
def thinParticles (E : EmissionData) (pairs : List (ℚ × ℕ × ℕ)) (i : ℕ) :
    List ℕ → RngState → List (ℕ × ℤ) × RngState
  | [], s => ([], s)
  | p :: ps, s =>
    let rest := thinParticles E pairs i ps (rngNext s).2
    (if acceptsP E pairs i p s then (i, Int.ofNat p) :: rest.1 else rest.1, rest.2)

/-- Modelled from the spec: one full sample interval — all particles in index
order, then the background draw last, the accepted background event tagged
with the sentinel `-1`. -/
def thinSample (E : EmissionData) (pairs : List (ℚ × ℕ × ℕ)) (bg : ℚ)
    (i : ℕ) (s : RngState) : List (ℕ × ℤ) × RngState :=
  let pr := thinParticles E pairs i (List.range E.np) s
  (pr.1 ++ (if acceptsBG E bg pr.2 then [(i, (-1 : ℤ))] else []),
   (rngNext pr.2).2)

/-- Modelled from the spec: the timestamp pass over `cnt` consecutive samples
starting at sample index `i`, in increasing sample order. -/
def thinRun (E : EmissionData) (pairs : List (ℚ × ℕ × ℕ)) (bg : ℚ) :
    ℕ → ℕ → RngState → List (ℕ × ℤ) × RngState
  | 0, _, s => ([], s)
  | cnt + 1, i, s =>
    let cur := thinSample E pairs bg i s
    let rest := thinRun E pairs bg cnt (i + 1) cur.2
    (cur.1 ++ rest.1, rest.2)

/-- The TimestampSeries produced by one timestamp run: `(sample-index,
particle-id)` pairs, background events carrying the sentinel `-1`. -/
def timestampsOut (E : EmissionData) (max_rates : List ℚ)
    (populations : List (ℕ × ℕ)) (bg_rate : ℚ) : List (ℕ × ℤ) :=
  (thinRun E (max_rates.zip populations) bg_rate E.ns 0 E.rs0).1

/-- Modelled from the spec: eager validation of a `RateSpec` — no negative max
rate or background rate, population ranges within the particle index range and
pairwise disjoint, and the worst-case combined instantaneous rate times `Δt`
(with every emission at its maximum 1) not exceeding 1. -/
def ratesValid (E : EmissionData) (max_rates : List ℚ)
    (populations : List (ℕ × ℕ)) (bg_rate : ℚ) : Prop :=
  (∀ r ∈ max_rates, 0 ≤ r) ∧ 0 ≤ bg_rate ∧
  (∀ pe ∈ populations, pe.1 ≤ pe.2 ∧ pe.2 ≤ E.np) ∧
  populations.Pairwise (fun a b => a.2 ≤ b.1 ∨ b.2 ≤ a.1) ∧
  (bg_rate + ((max_rates.zip populations).map
      (fun rse => rse.1 * ((rse.2.2 - rse.2.1 : ℕ) : ℚ))).sum) * E.t_step ≤ 1

instance (E : EmissionData) (max_rates : List ℚ) (populations : List (ℕ × ℕ))
    (bg_rate : ℚ) : Decidable (ratesValid E max_rates populations bg_rate) := by
  unfold ratesValid
  infer_instance

/-- Modelled from the spec:
`ParticlesSimulation.simulate_timestamps_mix(max_rates, populations, bg_rate)`
— validate the rate specification at configuration time (rejecting, never
clamping), then produce the timestamp series by non-homogeneous Poisson
thinning. -/
def simulate_timestamps_mix (E : EmissionData) (max_rates : List ℚ)
    (populations : List (ℕ × ℕ)) (bg_rate : ℚ) :
    Except SimError (List (ℕ × ℤ)) :=
  if ratesValid E max_rates populations bg_rate
  then .ok (timestampsOut E max_rates populations bg_rate)
  else .error .configurationError

/-- Tie-break key used to order particle-ids within one sample: the background
sentinel `-1` sorts after every real particle id. -/
def evKey (np : ℕ) (pid : ℤ) : ℤ :=
  if pid = -1 then (np : ℤ) else pid

theorem thinParticles_nil (E : EmissionData) (pairs : List (ℚ × ℕ × ℕ))
    (i : ℕ) (s : RngState) :
    thinParticles E pairs i [] s = ([], s) := rfl

theorem thinParticles_cons (E : EmissionData) (pairs : List (ℚ × ℕ × ℕ))
    (i p : ℕ) (ps : List ℕ) (s : RngState) :
    thinParticles E pairs i (p :: ps) s
      = (let rest := thinParticles E pairs i ps (rngNext s).2
         (if acceptsP E pairs i p s then (i, Int.ofNat p) :: rest.1 else rest.1,
          rest.2)) := rfl

theorem thinRun_zero (E : EmissionData) (pairs : List (ℚ × ℕ × ℕ)) (bg : ℚ)
    (i : ℕ) (s : RngState) :
    thinRun E pairs bg 0 i s = ([], s) := rfl

theorem thinRun_succ (E : EmissionData) (pairs : List (ℚ × ℕ × ℕ)) (bg : ℚ)
    (cnt i : ℕ) (s : RngState) :
    thinRun E pairs bg (cnt + 1) i s
      = (let cur := thinSample E pairs bg i s
         let rest := thinRun E pairs bg cnt (i + 1) cur.2
         (cur.1 ++ rest.1, rest.2)) := rfl

theorem thinParticles_state (E : EmissionData) (pairs : List (ℚ × ℕ × ℕ))
    (i : ℕ) :
    ∀ (l : List ℕ) (s : RngState),
      (thinParticles E pairs i l s).2 = advanceRng s l.length := by
  intro l
  induction l with
  | nil => intro s; rfl
  | cons p ps ih =>
    intro s
    rw [thinParticles_cons]
    simp only
    rw [ih (rngNext s).2, advanceRng_succ_left, List.length_cons]

theorem thinParticles_closed (E : EmissionData) (pairs : List (ℚ × ℕ × ℕ))
    (i : ℕ) :
    ∀ (len p0 : ℕ) (s : RngState),
      (thinParticles E pairs i (List.range' p0 len) s).1
        = ((List.range' p0 len).filter
            (fun p => acceptsP E pairs i p (advanceRng s (p - p0)))).map
            (fun p => (i, Int.ofNat p)) := by
  intro len
  induction len with
  | zero => intro p0 s; rfl
  | succ len ih =>
    intro p0 s
    rw [List.range'_succ, thinParticles_cons]
    simp only
    rw [List.filter_cons]
    have hcond : ∀ p ∈ List.range' (p0 + 1) len,
        acceptsP E pairs i p (advanceRng (rngNext s).2 (p - (p0 + 1)))
          = acceptsP E pairs i p (advanceRng s (p - p0)) := by
      intro p hp
      have hge : p0 + 1 ≤ p := (List.mem_range'_1.mp hp).1
      have he : p - (p0 + 1) + 1 = p - p0 := by omega
      rw [advanceRng_succ_left, he]
    rw [Nat.sub_self, advanceRng_zero]
    by_cases hC : acceptsP E pairs i p0 s = true
    · rw [if_pos hC, hC, ih (p0 + 1) (rngNext s).2, List.filter_congr hcond,
          if_pos rfl, List.map_cons]
    · rw [if_neg hC]
      rw [Bool.not_eq_true] at hC
      rw [hC, ih (p0 + 1) (rngNext s).2, List.filter_congr hcond,
          if_neg Bool.false_ne_true]

/-- The events of sample `i` in closed form: the accepted particles in index
order, then the background event when accepted; the draw consumed for particle
`p` of sample `i` is draw number `i·(np+1) + p` of the stream, the background
draw is draw number `i·(np+1) + np`. -/
def sampleEventsAt (E : EmissionData) (pairs : List (ℚ × ℕ × ℕ)) (bg : ℚ)
    (i : ℕ) : List (ℕ × ℤ) :=
  ((List.range E.np).filter
      (fun p => acceptsP E pairs i p (advanceRng E.rs0 (i * (E.np + 1) + p)))).map
    (fun p => (i, Int.ofNat p))
  ++ (if acceptsBG E bg (advanceRng E.rs0 (i * (E.np + 1) + E.np))
      then [(i, (-1 : ℤ))] else [])

theorem thinSample_closed (E : EmissionData) (pairs : List (ℚ × ℕ × ℕ))
    (bg : ℚ) (i b : ℕ) :
    thinSample E pairs bg i (advanceRng E.rs0 (b * (E.np + 1)))
      = (((List.range E.np).filter
            (fun p => acceptsP E pairs i p
              (advanceRng E.rs0 (b * (E.np + 1) + p)))).map
            (fun p => (i, Int.ofNat p))
          ++ (if acceptsBG E bg (advanceRng E.rs0 (b * (E.np + 1) + E.np))
              then [(i, (-1 : ℤ))] else []),
         advanceRng E.rs0 ((b + 1) * (E.np + 1))) := by
  unfold thinSample
  simp only
  rw [thinParticles_state, List.length_range,
      List.range_eq_range' E.np,
      thinParticles_closed E pairs i E.np 0 (advanceRng E.rs0 (b * (E.np + 1))),
      ← List.range_eq_range' E.np]
  have hfc : ∀ p ∈ List.range E.np,
      acceptsP E pairs i p (advanceRng (advanceRng E.rs0 (b * (E.np + 1))) (p - 0))
        = acceptsP E pairs i p (advanceRng E.rs0 (b * (E.np + 1) + p)) := by
    intro p hp
    rw [Nat.sub_zero, ← advanceRng_add]
  rw [List.filter_congr hfc, ← advanceRng_add]
  have hst : (rngNext (advanceRng E.rs0 (b * (E.np + 1) + E.np))).2
      = advanceRng E.rs0 ((b + 1) * (E.np + 1)) := by
    rw [← advanceRng_succ]
    congr 1
    ring
  rw [hst]

theorem thinRun_closed (E : EmissionData) (pairs : List (ℚ × ℕ × ℕ)) (bg : ℚ) :
    ∀ (cnt i : ℕ),
      (thinRun E pairs bg cnt i (advanceRng E.rs0 (i * (E.np + 1)))).1
        = ((List.range' i cnt).map (fun j => sampleEventsAt E pairs bg j)).flatten := by
  intro cnt
  induction cnt with
  | zero => intro i; rfl
  | succ cnt ih =>
    intro i
    rw [thinRun_succ]
    simp only
    rw [thinSample_closed E pairs bg i i]
    simp only
    rw [ih (i + 1), List.range'_succ, List.map_cons, List.flatten_cons]
    rfl

theorem timestampsOut_closed (E : EmissionData) (max_rates : List ℚ)
    (populations : List (ℕ × ℕ)) (bg_rate : ℚ) :
    timestampsOut E max_rates populations bg_rate
      = ((List.range E.ns).map
          (fun j => sampleEventsAt E (max_rates.zip populations) bg_rate j)).flatten := by
  unfold timestampsOut
  have h0 : E.rs0 = advanceRng E.rs0 (0 * (E.np + 1)) := by
    rw [Nat.zero_mul, advanceRng_zero]
  rw [h0, thinRun_closed, ← List.range_eq_range']

theorem evKey_ofNat (np p : ℕ) : evKey np (Int.ofNat p) = Int.ofNat p := by
  unfold evKey
  rw [if_neg (by rw [Int.ofNat_eq_natCast]; omega)]

theorem evKey_neg_one (np : ℕ) : evKey np (-1) = (np : ℤ) := by
  unfold evKey
  rw [if_pos rfl]

theorem sampleEventsAt_fst (E : EmissionData) (pairs : List (ℚ × ℕ × ℕ))
    (bg : ℚ) (i : ℕ) :
    ∀ ev ∈ sampleEventsAt E pairs bg i, ev.1 = i := by
  intro ev hev
  rcases List.mem_append.mp hev with h | h
  · obtain ⟨p, _, rfl⟩ := List.mem_map.mp h
    rfl
  · by_cases hbg : acceptsBG E bg (advanceRng E.rs0 (i * (E.np + 1) + E.np)) = true
    · rw [if_pos hbg] at h
      rw [List.mem_singleton.mp h]
    · rw [if_neg hbg] at h
      exact absurd h (List.not_mem_nil ev)

theorem sampleEventsAt_pairwise (E : EmissionData) (pairs : List (ℚ × ℕ × ℕ))
    (bg : ℚ) (i : ℕ) :
    (sampleEventsAt E pairs bg i).Pairwise (fun a b =>
      a.1 < b.1 ∨ (a.1 = b.1 ∧ evKey E.np a.2 < evKey E.np b.2)) := by
  unfold sampleEventsAt
  rw [List.pairwise_append]
  refine ⟨?_, ?_, ?_⟩
  · rw [List.pairwise_map]
    have hpw : (List.range E.np).Pairwise (· < ·) := List.pairwise_lt_range E.np
    have hfil : ((List.range E.np).filter
        (fun p => acceptsP E pairs i p
          (advanceRng E.rs0 (i * (E.np + 1) + p)))).Pairwise (· < ·) :=
      hpw.sublist (List.filter_sublist (List.range E.np))
    exact hfil.imp (fun {a b} hab =>
      Or.inr ⟨rfl, by
        rw [evKey_ofNat, evKey_ofNat, Int.ofNat_eq_natCast, Int.ofNat_eq_natCast]
        omega⟩)
  · by_cases hbg : acceptsBG E bg (advanceRng E.rs0 (i * (E.np + 1) + E.np)) = true
    · rw [if_pos hbg]
      exact List.pairwise_singleton _ _
    · rw [if_neg hbg]
      exact List.Pairwise.nil
  · intro a ha b hb
    obtain ⟨p, hp, rfl⟩ := List.mem_map.mp ha
    have hpn : p < E.np := List.mem_range.mp (List.mem_filter.mp hp).1
    have hb' : b = (i, -1) := by
      by_cases hbg : acceptsBG E bg (advanceRng E.rs0 (i * (E.np + 1) + E.np)) = true
      · rw [if_pos hbg] at hb
        exact List.mem_singleton.mp hb
      · rw [if_neg hbg] at hb
        exact absurd hb (List.not_mem_nil b)
    rw [hb']
    right
    refine ⟨rfl, ?_⟩
    rw [evKey_ofNat, evKey_neg_one, Int.ofNat_eq_natCast]
    omega

theorem mem_sampleEventsAt (E : EmissionData) (pairs : List (ℚ × ℕ × ℕ))
    (bg : ℚ) (i : ℕ) (ev : ℕ × ℤ) :
    ev ∈ sampleEventsAt E pairs bg i ↔
      ((∃ p, p < E.np ∧ ev = (i, Int.ofNat p) ∧
          acceptsP E pairs i p (advanceRng E.rs0 (i * (E.np + 1) + p)) = true) ∨
       (ev = (i, -1) ∧
          acceptsBG E bg (advanceRng E.rs0 (i * (E.np + 1) + E.np)) = true)) := by
  unfold sampleEventsAt
  rw [List.mem_append]
  have h1 : ev ∈ ((List.range E.np).filter
        (fun p => acceptsP E pairs i p (advanceRng E.rs0 (i * (E.np + 1) + p)))).map
        (fun p => (i, Int.ofNat p))
      ↔ (∃ p, p < E.np ∧ ev = (i, Int.ofNat p) ∧
          acceptsP E pairs i p (advanceRng E.rs0 (i * (E.np + 1) + p)) = true) := by
    rw [List.mem_map]
    constructor
    · rintro ⟨p, hp, rfl⟩
      have hm := List.mem_filter.mp hp
      exact ⟨p, List.mem_range.mp hm.1, rfl, hm.2⟩
    · rintro ⟨p, hpn, heq, hacc⟩
      exact ⟨p, List.mem_filter.mpr ⟨List.mem_range.mpr hpn, hacc⟩, heq.symm⟩
  have h2 : ev ∈ (if acceptsBG E bg (advanceRng E.rs0 (i * (E.np + 1) + E.np))
        then [(i, (-1 : ℤ))] else [])
      ↔ (ev = (i, -1) ∧
          acceptsBG E bg (advanceRng E.rs0 (i * (E.np + 1) + E.np)) = true) := by
    by_cases hbg : acceptsBG E bg (advanceRng E.rs0 (i * (E.np + 1) + E.np)) = true
    · rw [if_pos hbg, List.mem_singleton]
      exact ⟨fun h => ⟨h, hbg⟩, fun h => h.1⟩
    · rw [if_neg hbg]
      constructor
      · intro h
        exact absurd h (List.not_mem_nil ev)
      · intro h
        exact absurd h.2 hbg
  rw [h1, h2]

/-- **C3 (amended).** Every TimestampSeries produced by the timestamp
generator on a valid configuration is sorted: the sample-indices are
non-decreasing (strictly increasing fails when two sources accept in the same
sample interval — see the counterexample), events are ordered by sample-index
with ties broken by particle-id ascending and the background sentinel `-1`
sorting last among ties (via the key `evKey`); every particle-id is a valid
particle index or the sentinel `-1`; and the series contains exactly the
accepted thinning events: an event `(i, pid)` is in the series iff `i` is a
valid sample and either `pid` encodes a particle whose draw was accepted at
sample `i` or `pid` is the sentinel and the background draw of sample `i` was
accepted. -/
theorem timestamps_series_spec (E : EmissionData) (mr : List ℚ)
    (pops : List (ℕ × ℕ)) (bg : ℚ) (hv : ratesValid E mr pops bg) :
    simulate_timestamps_mix E mr pops bg = .ok (timestampsOut E mr pops bg) ∧
    (timestampsOut E mr pops bg).Pairwise (fun a b =>
      a.1 < b.1 ∨ (a.1 = b.1 ∧ evKey E.np a.2 < evKey E.np b.2)) ∧
    (timestampsOut E mr pops bg).Pairwise (fun a b => a.1 ≤ b.1) ∧
    (∀ ev ∈ timestampsOut E mr pops bg,
      ev.2 = -1 ∨ (0 ≤ ev.2 ∧ ev.2 < (E.np : ℤ))) ∧
    (∀ ev : ℕ × ℤ, ev ∈ timestampsOut E mr pops bg ↔
      (ev.1 < E.ns ∧
       ((∃ p, p < E.np ∧ ev.2 = Int.ofNat p ∧
           acceptsP E (mr.zip pops) ev.1 p
             (advanceRng E.rs0 (ev.1 * (E.np + 1) + p)) = true) ∨
        (ev.2 = -1 ∧
           acceptsBG E bg (advanceRng E.rs0 (ev.1 * (E.np + 1) + E.np)) = true)))) := by
  have hmem : ∀ ev : ℕ × ℤ, ev ∈ timestampsOut E mr pops bg ↔
      ∃ j, j < E.ns ∧ ev ∈ sampleEventsAt E (mr.zip pops) bg j := by
    intro ev
    rw [timestampsOut_closed, List.mem_flatten]
    constructor
    · rintro ⟨l, hl, hev⟩
      obtain ⟨j, hj, rfl⟩ := List.mem_map.mp hl
      exact ⟨j, List.mem_range.mp hj, hev⟩
    · rintro ⟨j, hj, hev⟩
      exact ⟨_, List.mem_map.mpr ⟨j, List.mem_range.mpr hj, rfl⟩, hev⟩
  have hpairwise : (timestampsOut E mr pops bg).Pairwise (fun a b =>
      a.1 < b.1 ∨ (a.1 = b.1 ∧ evKey E.np a.2 < evKey E.np b.2)) := by
    rw [timestampsOut_closed, List.pairwise_flatten]
    constructor
    · intro l hl
      obtain ⟨j, _, rfl⟩ := List.mem_map.mp hl
      exact sampleEventsAt_pairwise E (mr.zip pops) bg j
    · rw [List.pairwise_map]
      refine (List.pairwise_lt_range E.ns).imp ?_
      intro a b hab x hx y hy
      left
      rw [sampleEventsAt_fst E (mr.zip pops) bg a x hx,
          sampleEventsAt_fst E (mr.zip pops) bg b y hy]
      exact hab
  refine ⟨?_, hpairwise, ?_, ?_, ?_⟩
  · unfold simulate_timestamps_mix
    rw [if_pos hv]
  · exact hpairwise.imp (fun {a b} hab => by rcases hab with h | ⟨h, _⟩ <;> omega)
  · intro ev hev
    obtain ⟨j, hj, hevj⟩ := (hmem ev).mp hev
    rcases (mem_sampleEventsAt E (mr.zip pops) bg j ev).mp hevj with
      ⟨p, hpn, heq, _⟩ | ⟨heq, _⟩
    · right
      rw [heq]
      simp only [Int.ofNat_eq_natCast]
      omega
    · left
      rw [heq]
  · intro ev
    rw [hmem ev]
    constructor
    · rintro ⟨j, hj, hevj⟩
      rcases (mem_sampleEventsAt E (mr.zip pops) bg j ev).mp hevj with
        ⟨p, hpn, heq, hacc⟩ | ⟨heq, hacc⟩
      · subst heq
        exact ⟨hj, Or.inl ⟨p, hpn, rfl, hacc⟩⟩
      · subst heq
        exact ⟨hj, Or.inr ⟨rfl, hacc⟩⟩
    · rintro ⟨hns, hcase⟩
      refine ⟨ev.1, hns, (mem_sampleEventsAt E (mr.zip pops) bg ev.1 ev).mpr ?_⟩
      rcases hcase with ⟨p, hpn, heq2, hacc⟩ | ⟨heq2, hacc⟩
      · exact Or.inl ⟨p, hpn, by rw [← heq2], hacc⟩
      · exact Or.inr ⟨by rw [← heq2], hacc⟩

/-- **C7.** The timestamp generator fails with `ConfigurationError`, at
configuration time and without clamping, exactly when some max rate or the
background rate is negative, or a population range is invalid or ranges
overlap, or the worst-case combined instantaneous rate times `Δt` exceeds 1;
for every other configuration it succeeds with the thinning series of the rate
specification. -/
theorem simulate_timestamps_validation (E : EmissionData) (mr : List ℚ)
    (pops : List (ℕ × ℕ)) (bg : ℚ) :
    (simulate_timestamps_mix E mr pops bg = .error .configurationError ↔
      ((∃ r ∈ mr, r < 0) ∨ bg < 0 ∨
       (∃ pe ∈ pops, ¬ (pe.1 ≤ pe.2 ∧ pe.2 ≤ E.np)) ∨
       ¬ pops.Pairwise (fun a b => a.2 ≤ b.1 ∨ b.2 ≤ a.1) ∨
       1 < (bg + ((mr.zip pops).map
           (fun rse => rse.1 * ((rse.2.2 - rse.2.1 : ℕ) : ℚ))).sum) * E.t_step)) ∧
    (simulate_timestamps_mix E mr pops bg = .ok (timestampsOut E mr pops bg) ↔
      ¬ ((∃ r ∈ mr, r < 0) ∨ bg < 0 ∨
         (∃ pe ∈ pops, ¬ (pe.1 ≤ pe.2 ∧ pe.2 ≤ E.np)) ∨
         ¬ pops.Pairwise (fun a b => a.2 ≤ b.1 ∨ b.2 ≤ a.1) ∨
         1 < (bg + ((mr.zip pops).map
             (fun rse => rse.1 * ((rse.2.2 - rse.2.1 : ℕ) : ℚ))).sum) * E.t_step)) := by
  have hiff : ¬ ratesValid E mr pops bg ↔
      ((∃ r ∈ mr, r < 0) ∨ bg < 0 ∨
       (∃ pe ∈ pops, ¬ (pe.1 ≤ pe.2 ∧ pe.2 ≤ E.np)) ∨
       ¬ pops.Pairwise (fun a b => a.2 ≤ b.1 ∨ b.2 ≤ a.1) ∨
       1 < (bg + ((mr.zip pops).map
           (fun rse => rse.1 * ((rse.2.2 - rse.2.1 : ℕ) : ℚ))).sum) * E.t_step) := by
    constructor
    · intro h
      by_contra hc
      push_neg at hc
      obtain ⟨h1, h2, h3, h4, h5⟩ := hc
      exact h ⟨h1, h2, h3, h4, h5⟩
    · intro hd hvv
      obtain ⟨h1, h2, h3, h4, h5⟩ := hvv
      rcases hd with ⟨r, hr, h⟩ | h | ⟨pe, hpe, h⟩ | h | h
      · exact absurd (h1 r hr) (not_le.mpr h)
      · linarith
      · exact h (h3 pe hpe)
      · exact h h4
      · linarith
  have herr : simulate_timestamps_mix E mr pops bg = .error .configurationError ↔
      ¬ ratesValid E mr pops bg := by
    unfold simulate_timestamps_mix
    by_cases hvv : ratesValid E mr pops bg
    · simp [hvv]
    · simp [hvv]
  have hok : simulate_timestamps_mix E mr pops bg
      = .ok (timestampsOut E mr pops bg) ↔ ratesValid E mr pops bg := by
    unfold simulate_timestamps_mix
    by_cases hvv : ratesValid E mr pops bg
    · simp [hvv]
    · simp [hvv]
  refine ⟨herr.trans hiff, hok.trans ?_⟩
  constructor
  · intro hvv hd
    exact (hiff.mpr hd) hvv
  · intro hnd
    by_contra hnv
    exact hnd (hiff.mp hnv)

/-- Concrete emission data for the timestamp claims: one particle, one sample,
unit `Δt`, constant unit emission, seed state 0. -/
def exEm : EmissionData where
  np := 1
  ns := 1
  t_step := 1
  em := fun _ _ => 1
  rs0 := ⟨0⟩

theorem exEm_valid : ratesValid exEm [1/4] [(0, 1)] (3/4) := by
  unfold ratesValid
  refine ⟨?_, by norm_num, ?_, List.pairwise_singleton _ _, ?_⟩
  · intro r hr
    rw [List.mem_singleton.mp hr]
    norm_num
  · intro pe hpe
    rw [List.mem_singleton.mp hpe]
    exact ⟨by norm_num, by norm_num [exEm]⟩
  · norm_num [exEm, List.zip_cons_cons]

theorem exEm_acceptP :
    acceptsP exEm ([(1 : ℚ)/4].zip [(0, 1)]) 0 0 (⟨0⟩ : RngState) = true := by
  unfold acceptsP
  rw [decide_eq_true_eq]
  unfold uniformVal rngNext rateOf exEm
  norm_num [List.zip_cons_cons]

theorem exEm_acceptBG :
    acceptsBG exEm (3/4) (⟨1013904223⟩ : RngState) = true := by
  unfold acceptsBG
  rw [decide_eq_true_eq]
  unfold uniformVal rngNext exEm
  norm_num

/-- Counterexample to C3 as stated: on the valid configuration
(`max_rate·Δt = 1/4`, `bg_rate·Δt = 3/4`, unit emission) the particle draw and
the background draw of sample 0 are both accepted, so the produced
TimestampSeries holds two events with the same sample-index 0 — its
sample-indices are not strictly increasing. -/
theorem timestamps_not_strictly_increasing :
    simulate_timestamps_mix exEm [1/4] [(0, 1)] (3/4)
      = .ok [(0, Int.ofNat 0), (0, -1)] ∧
    ¬ ([(0, Int.ofNat 0), (0, -1)] : List (ℕ × ℤ)).Pairwise
        (fun a b => a.1 < b.1) := by
  constructor
  · unfold simulate_timestamps_mix
    rw [if_pos exEm_valid, timestampsOut_closed]
    have hns : exEm.ns = 1 := rfl
    have hnp : exEm.np = 1 := rfl
    have hr1 : List.range 1 = [0] := rfl
    rw [hns, hr1]
    simp only [List.map_cons, List.map_nil, List.flatten_cons, List.flatten_nil,
      List.append_nil]
    unfold sampleEventsAt
    rw [hnp, hr1]
    simp only [List.filter_cons, List.filter_nil]
    have hs0 : advanceRng exEm.rs0 (0 * (1 + 1) + 0) = (⟨0⟩ : RngState) := rfl
    have hs1 : advanceRng exEm.rs0 (0 * (1 + 1) + 1)
        = (⟨1013904223⟩ : RngState) := rfl
    rw [hs0, hs1, exEm_acceptP, exEm_acceptBG, if_pos rfl, if_pos rfl]
    rfl
  · intro h
    have h01 := (List.pairwise_cons.mp h).1 (0, -1) (List.mem_singleton_self _)
    simp at h01

/-- Witness for C3 (amended) at the concrete configuration `exEm`. -/
theorem timestamps_series_spec_witness :
    ratesValid exEm [1/4] [(0, 1)] (3/4) ∧
    (simulate_timestamps_mix exEm [1/4] [(0, 1)] (3/4)
        = .ok (timestampsOut exEm [1/4] [(0, 1)] (3/4)) ∧
     (timestampsOut exEm [1/4] [(0, 1)] (3/4)).Pairwise (fun a b =>
       a.1 < b.1 ∨ (a.1 = b.1 ∧ evKey exEm.np a.2 < evKey exEm.np b.2)) ∧
     (timestampsOut exEm [1/4] [(0, 1)] (3/4)).Pairwise (fun a b => a.1 ≤ b.1) ∧
     (∀ ev ∈ timestampsOut exEm [1/4] [(0, 1)] (3/4),
       ev.2 = -1 ∨ (0 ≤ ev.2 ∧ ev.2 < (exEm.np : ℤ))) ∧
     (∀ ev : ℕ × ℤ, ev ∈ timestampsOut exEm [1/4] [(0, 1)] (3/4) ↔
       (ev.1 < exEm.ns ∧
        ((∃ p, p < exEm.np ∧ ev.2 = Int.ofNat p ∧
            acceptsP exEm (List.zip [1/4] [(0, 1)]) ev.1 p
              (advanceRng exEm.rs0 (ev.1 * (exEm.np + 1) + p)) = true) ∨
         (ev.2 = -1 ∧
            acceptsBG exEm (3/4) (advanceRng exEm.rs0
              (ev.1 * (exEm.np + 1) + exEm.np)) = true))))) :=
  ⟨exEm_valid, timestamps_series_spec exEm [1/4] [(0, 1)] (3/4) exEm_valid⟩

/-- Modelled from the spec: the analytical Gaussian `ExcitationProfile`,
`intensity(x, y, z) = exp(−2·(x²+y²)/wxy² − 2·z²/wz²)` for configured waist
radii `wxy`, `wz`.  Pure and branch-free; the exponential lives in `ℝ`. -/
noncomputable def GaussianPSF (wxy wz x y z : ℚ) : ℝ :=
  Real.exp (((-2 * (x ^ 2 + y ^ 2) / wxy ^ 2 - 2 * z ^ 2 / wz ^ 2 : ℚ) : ℝ))

/-- Modelled from the spec: the missing `NumericPSF` — a precomputed intensity
grid on the cylindrical `(r, z)` half-plane with its axis coordinate
vectors. -/
structure NumericPSF where
  nr : ℕ
  nz : ℕ
  rAxis : ℕ → ℚ
  zAxis : ℕ → ℚ
  vals : ℕ → ℕ → ℚ

/-- Modelled from the spec: 1-D linear interpolation along one tabulated axis.
The cell containing the query is located; queries outside the tabulated domain
belong to no cell and return 0 (the spec's out-of-domain policy: the
excitation volume is physically bounded). -/
def interp1d (n : ℕ) (axis : ℕ → ℚ) (v : ℕ → ℚ) (q : ℚ) : ℚ :=
  match (List.range (n - 1)).find?
      (fun j => decide (axis j ≤ q) && decide (q ≤ axis (j + 1))) with
  | some j => v j + (v (j + 1) - v j) * ((q - axis j) / (axis (j + 1) - axis j))
  | none => 0

/-- Modelled from the spec: the numeric-grid `ExcitationProfile` evaluation —
bilinear interpolation of the 2-D `(r, z)` grid at the query, as the
composition of two 1-D linear interpolations. -/
def NumericPSF.intensity (psf : NumericPSF) (r z : ℚ) : ℚ :=
  interp1d psf.nr psf.rAxis
    (fun j => interp1d psf.nz psf.zAxis (fun k => psf.vals j k) z) r

theorem axis_mono (n : ℕ) (axis : ℕ → ℚ)
    (h : ∀ j, j < n - 1 → axis j < axis (j + 1)) :
    ∀ a b, a ≤ b → b ≤ n - 1 → axis a ≤ axis b := by
  intro a b
  induction b with
  | zero =>
    intro hab _
    have : a = 0 := by omega
    subst this
    exact le_refl _
  | succ b ih =>
    intro hab hbn
    rcases Nat.eq_or_lt_of_le hab with heq | hlt
    · subst heq
      exact le_refl _
    · have h1 := ih (by omega) (by omega)
      have h2 : axis b < axis (b + 1) := h b (by omega)
      linarith

theorem interp1d_mem (n : ℕ) (axis : ℕ → ℚ) (v : ℕ → ℚ) (q : ℚ)
    (hmono : ∀ j, j < n - 1 → axis j < axis (j + 1))
    (hv : ∀ j, j < n → 0 ≤ v j ∧ v j ≤ 1) :
    0 ≤ interp1d n axis v q ∧ interp1d n axis v q ≤ 1 := by
  unfold interp1d
  cases hfind : (List.range (n - 1)).find?
      (fun j => decide (axis j ≤ q) && decide (q ≤ axis (j + 1))) with
  | none => norm_num
  | some j =>
    have hjr : j < n - 1 := List.mem_range.mp (List.mem_of_find?_eq_some hfind)
    have hcond := List.find?_some hfind
    rw [Bool.and_eq_true, decide_eq_true_eq, decide_eq_true_eq] at hcond
    obtain ⟨hle, hge⟩ := hcond
    have hd : 0 < axis (j + 1) - axis j := by
      have := hmono j hjr
      linarith
    obtain ⟨hv0, hv1⟩ := hv j (by omega)
    obtain ⟨hw0, hw1⟩ := hv (j + 1) (by omega)
    have ht0 : 0 ≤ (q - axis j) / (axis (j + 1) - axis j) :=
      div_nonneg (by linarith) (le_of_lt hd)
    have ht1 : (q - axis j) / (axis (j + 1) - axis j) ≤ 1 := by
      rw [div_le_one hd]
      linarith
    constructor
    · nlinarith [mul_nonneg ht0 hw0, mul_nonneg ht0 hv0]
    · nlinarith [mul_nonneg ht0 (sub_nonneg.mpr hw1),
        mul_nonneg (sub_nonneg.mpr ht1) (sub_nonneg.mpr hv1)]

theorem interp1d_vzero (n : ℕ) (axis : ℕ → ℚ) (v : ℕ → ℚ) (q : ℚ)
    (hv : ∀ j, j < n → v j = 0) :
    interp1d n axis v q = 0 := by
  unfold interp1d
  cases hfind : (List.range (n - 1)).find?
      (fun j => decide (axis j ≤ q) && decide (q ≤ axis (j + 1))) with
  | none => rfl
  | some j =>
    have hjr : j < n - 1 := List.mem_range.mp (List.mem_of_find?_eq_some hfind)
    simp only
    rw [hv j (by omega), hv (j + 1) (by omega)]
    ring

theorem interp1d_out (n : ℕ) (axis : ℕ → ℚ) (v : ℕ → ℚ) (q : ℚ)
    (hmono : ∀ j, j < n - 1 → axis j < axis (j + 1))
    (hout : axis (n - 1) < q ∨ q < axis 0) :
    interp1d n axis v q = 0 := by
  unfold interp1d
  have hnone : (List.range (n - 1)).find?
      (fun j => decide (axis j ≤ q) && decide (q ≤ axis (j + 1))) = none := by
    rw [List.find?_eq_none]
    intro j hj
    have hjr : j < n - 1 := List.mem_range.mp hj
    simp only [Bool.and_eq_true, decide_eq_true_eq, not_and]
    intro h1 h2
    rcases hout with hr | hl
    · have : axis (j + 1) ≤ axis (n - 1) :=
        axis_mono n axis hmono (j + 1) (n - 1) (by omega) (le_refl _)
      linarith
    · have : axis 0 ≤ axis j := axis_mono n axis hmono 0 j (by omega) (by omega)
      linarith
  rw [hnone]

theorem find?_first {p : ℕ → Bool} :
    ∀ (l : List ℕ) (a : ℕ), a ∈ l → p a = true →
      (∀ b ∈ l, b ≠ a → p b = false) → l.find? p = some a := by
  intro l
  induction l with
  | nil =>
    intro a ha
    exact absurd ha (List.not_mem_nil a)
  | cons x xs ih =>
    intro a ha hpa hother
    by_cases hxa : x = a
    · subst hxa
      exact List.find?_cons_of_pos xs hpa
    · have hpx : p x = false := hother x (List.mem_cons_self x xs) hxa
      have hmem : a ∈ xs := by
        rcases List.mem_cons.mp ha with heq | hm
        · exact absurd heq.symm hxa
        · exact hm
      rw [List.find?_cons_of_neg xs (by rw [hpx]; exact Bool.false_ne_true)]
      exact ih a hmem hpa (fun b hb hba => hother b (List.mem_cons_of_mem x hb) hba)

theorem interp1d_interior (n : ℕ) (axis : ℕ → ℚ) (v : ℕ → ℚ) (q : ℚ)
    (hmono : ∀ j, j < n - 1 → axis j < axis (j + 1))
    (j : ℕ) (hj : j < n - 1) (h1 : axis j < q) (h2 : q < axis (j + 1)) :
    interp1d n axis v q
      = v j + (v (j + 1) - v j) * ((q - axis j) / (axis (j + 1) - axis j)) := by
  unfold interp1d
  have hfind : (List.range (n - 1)).find?
      (fun b => decide (axis b ≤ q) && decide (q ≤ axis (b + 1))) = some j := by
    apply find?_first
    · exact List.mem_range.mpr hj
    · rw [Bool.and_eq_true, decide_eq_true_eq, decide_eq_true_eq]
      exact ⟨le_of_lt h1, le_of_lt h2⟩
    · intro b hb hbj
      have hbr : b < n - 1 := List.mem_range.mp hb
      rcases Nat.lt_or_ge b j with hlt | hge
      · have : axis (b + 1) ≤ axis j :=
          axis_mono n axis hmono (b + 1) j (by omega) (by omega)
        have hnq : ¬ (q ≤ axis (b + 1)) := by linarith
        rw [decide_eq_false hnq, Bool.and_false]
      · have hgt : j < b := by omega
        have : axis (j + 1) ≤ axis b :=
          axis_mono n axis hmono (j + 1) b (by omega) (by omega)
        have hnq : ¬ (axis b ≤ q) := by linarith
        rw [decide_eq_false hnq, Bool.false_and]
  rw [hfind]

/-- **C4.** Both `ExcitationProfile` variants return an intensity in `[0,1]`:
the analytical Gaussian for every position, and the numeric grid for every
query point whenever its axes are strictly increasing and its tabulated
values are normalized intensities in `[0,1]`; moreover the Gaussian variant
evaluated at the origin `(0,0,0)` returns exactly 1. -/
theorem excitation_intensity_unit (wxy wz x y z : ℚ) (psf : NumericPSF)
    (r zq : ℚ)
    (hr : ∀ j, j < psf.nr - 1 → psf.rAxis j < psf.rAxis (j + 1))
    (hz : ∀ k, k < psf.nz - 1 → psf.zAxis k < psf.zAxis (k + 1))
    (hvals : ∀ j, j < psf.nr → ∀ k, k < psf.nz →
      0 ≤ psf.vals j k ∧ psf.vals j k ≤ 1) :
    (0 ≤ GaussianPSF wxy wz x y z ∧ GaussianPSF wxy wz x y z ≤ 1) ∧
    GaussianPSF wxy wz 0 0 0 = 1 ∧
    (0 ≤ psf.intensity r zq ∧ psf.intensity r zq ≤ 1) := by
  refine ⟨⟨le_of_lt (Real.exp_pos _), ?_⟩, ?_, ?_⟩
  · unfold GaussianPSF
    rw [Real.exp_le_one_iff]
    have hq : (-2 * (x ^ 2 + y ^ 2) / wxy ^ 2 - 2 * z ^ 2 / wz ^ 2 : ℚ) ≤ 0 := by
      have h1 : 0 ≤ 2 * (x ^ 2 + y ^ 2) / wxy ^ 2 := by positivity
      have h2 : 0 ≤ 2 * z ^ 2 / wz ^ 2 := by positivity
      have he : (-2 * (x ^ 2 + y ^ 2) / wxy ^ 2 - 2 * z ^ 2 / wz ^ 2 : ℚ)
          = -(2 * (x ^ 2 + y ^ 2) / wxy ^ 2) - 2 * z ^ 2 / wz ^ 2 := by ring
      rw [he]
      linarith
    exact_mod_cast hq
  · unfold GaussianPSF
    have he : (-2 * ((0 : ℚ) ^ 2 + 0 ^ 2) / wxy ^ 2 - 2 * 0 ^ 2 / wz ^ 2 : ℚ) = 0 := by
      norm_num
    rw [he, Rat.cast_zero, Real.exp_zero]
  · unfold NumericPSF.intensity
    apply interp1d_mem psf.nr psf.rAxis _ r hr
    intro j hj
    exact interp1d_mem psf.nz psf.zAxis (fun k => psf.vals j k) zq hz
      (fun k hk => hvals j hj k hk)

/-- Concrete numeric PSF grid used by the witnesses: a 2×2 grid with unit
axis spacing and constant value 1. -/
def exPSF : NumericPSF where
  nr := 2
  nz := 2
  rAxis := fun j => (j : ℚ)
  zAxis := fun k => (k : ℚ)
  vals := fun _ _ => 1

theorem exPSF_rmono : ∀ j, j < exPSF.nr - 1 → exPSF.rAxis j < exPSF.rAxis (j + 1) := by
  intro j hj
  have hj0 : j = 0 := by
    have : exPSF.nr = 2 := rfl
    omega
  subst hj0
  norm_num [exPSF]

theorem exPSF_zmono : ∀ k, k < exPSF.nz - 1 → exPSF.zAxis k < exPSF.zAxis (k + 1) := by
  intro k hk
  have hk0 : k = 0 := by
    have : exPSF.nz = 2 := rfl
    omega
  subst hk0
  norm_num [exPSF]

theorem exPSF_vals : ∀ j, j < exPSF.nr → ∀ k, k < exPSF.nz →
    0 ≤ exPSF.vals j k ∧ exPSF.vals j k ≤ 1 := by
  intro j _ k _
  exact ⟨by norm_num [exPSF], by norm_num [exPSF]⟩

/-- Witness for C4 at concrete waists, a concrete position, and the concrete
2×2 grid. -/
theorem excitation_intensity_unit_witness :
    (∀ j, j < exPSF.nr - 1 → exPSF.rAxis j < exPSF.rAxis (j + 1)) ∧
    (∀ k, k < exPSF.nz - 1 → exPSF.zAxis k < exPSF.zAxis (k + 1)) ∧
    (∀ j, j < exPSF.nr → ∀ k, k < exPSF.nz →
      0 ≤ exPSF.vals j k ∧ exPSF.vals j k ≤ 1) ∧
    ((0 ≤ GaussianPSF 1 1 1 2 3 ∧ GaussianPSF 1 1 1 2 3 ≤ 1) ∧
     GaussianPSF 1 1 0 0 0 = 1 ∧
     (0 ≤ exPSF.intensity (1/2) (1/2) ∧ exPSF.intensity (1/2) (1/2) ≤ 1)) :=
  ⟨exPSF_rmono, exPSF_zmono, exPSF_vals,
   excitation_intensity_unit 1 1 1 2 3 exPSF (1/2) (1/2)
     exPSF_rmono exPSF_zmono exPSF_vals⟩

/-- **C9.** The numeric-grid `ExcitationProfile` returns 0 for every query
whose radius or depth lies beyond the tabulated domain (past the last
tabulated radius or depth, or before the first), and inside the domain
(strictly within a grid cell) it returns exactly the bilinear interpolation of
the four surrounding grid values. -/
theorem numeric_psf_domain_policy (psf : NumericPSF) (r z : ℚ)
    (hr : ∀ j, j < psf.nr - 1 → psf.rAxis j < psf.rAxis (j + 1))
    (hz : ∀ k, k < psf.nz - 1 → psf.zAxis k < psf.zAxis (k + 1)) :
    (psf.rAxis (psf.nr - 1) < r → psf.intensity r z = 0) ∧
    (r < psf.rAxis 0 → psf.intensity r z = 0) ∧
    (psf.zAxis (psf.nz - 1) < z → psf.intensity r z = 0) ∧
    (z < psf.zAxis 0 → psf.intensity r z = 0) ∧
    (∀ j k, j < psf.nr - 1 → k < psf.nz - 1 →
      psf.rAxis j < r → r < psf.rAxis (j + 1) →
      psf.zAxis k < z → z < psf.zAxis (k + 1) →
      psf.intensity r z
        = (1 - (r - psf.rAxis j) / (psf.rAxis (j + 1) - psf.rAxis j))
            * ((1 - (z - psf.zAxis k) / (psf.zAxis (k + 1) - psf.zAxis k))
                 * psf.vals j k
               + (z - psf.zAxis k) / (psf.zAxis (k + 1) - psf.zAxis k)
                 * psf.vals j (k + 1))
          + (r - psf.rAxis j) / (psf.rAxis (j + 1) - psf.rAxis j)
            * ((1 - (z - psf.zAxis k) / (psf.zAxis (k + 1) - psf.zAxis k))
                 * psf.vals (j + 1) k
               + (z - psf.zAxis k) / (psf.zAxis (k + 1) - psf.zAxis k)
                 * psf.vals (j + 1) (k + 1))) := by
  refine ⟨?_, ?_, ?_, ?_, ?_⟩
  · intro h
    unfold NumericPSF.intensity
    exact interp1d_out psf.nr psf.rAxis _ r hr (Or.inl h)
  · intro h
    unfold NumericPSF.intensity
    exact interp1d_out psf.nr psf.rAxis _ r hr (Or.inr h)
  · intro h
    unfold NumericPSF.intensity
    apply interp1d_vzero
    intro j _
    exact interp1d_out psf.nz psf.zAxis _ z hz (Or.inl h)
  · intro h
    unfold NumericPSF.intensity
    apply interp1d_vzero
    intro j _
    exact interp1d_out psf.nz psf.zAxis _ z hz (Or.inr h)
  · intro j k hj hk hr1 hr2 hz1 hz2
    unfold NumericPSF.intensity
    rw [interp1d_interior psf.nr psf.rAxis
        (fun j => interp1d psf.nz psf.zAxis (fun k => psf.vals j k) z) r hr j hj hr1 hr2]
    rw [interp1d_interior psf.nz psf.zAxis (fun k => psf.vals j k) z hz k hk hz1 hz2,
        interp1d_interior psf.nz psf.zAxis (fun k => psf.vals (j + 1) k) z hz k hk hz1 hz2]
    ring

/-- Witness for C9 on the concrete 2×2 grid. -/
theorem numeric_psf_domain_policy_witness :
    (∀ j, j < exPSF.nr - 1 → exPSF.rAxis j < exPSF.rAxis (j + 1)) ∧
    (∀ k, k < exPSF.nz - 1 → exPSF.zAxis k < exPSF.zAxis (k + 1)) ∧
    ((exPSF.rAxis (exPSF.nr - 1) < 3 → exPSF.intensity 3 (1/2) = 0) ∧
     ((3 : ℚ) < exPSF.rAxis 0 → exPSF.intensity 3 (1/2) = 0) ∧
     (exPSF.zAxis (exPSF.nz - 1) < (1/2 : ℚ) → exPSF.intensity 3 (1/2) = 0) ∧
     ((1/2 : ℚ) < exPSF.zAxis 0 → exPSF.intensity 3 (1/2) = 0) ∧
     (∀ j k, j < exPSF.nr - 1 → k < exPSF.nz - 1 →
       exPSF.rAxis j < 3 → (3 : ℚ) < exPSF.rAxis (j + 1) →
       exPSF.zAxis k < (1/2 : ℚ) → (1/2 : ℚ) < exPSF.zAxis (k + 1) →
       exPSF.intensity 3 (1/2)
         = (1 - (3 - exPSF.rAxis j) / (exPSF.rAxis (j + 1) - exPSF.rAxis j))
             * ((1 - (1/2 - exPSF.zAxis k) / (exPSF.zAxis (k + 1) - exPSF.zAxis k))
                  * exPSF.vals j k
                + (1/2 - exPSF.zAxis k) / (exPSF.zAxis (k + 1) - exPSF.zAxis k)
                  * exPSF.vals j (k + 1))
           + (3 - exPSF.rAxis j) / (exPSF.rAxis (j + 1) - exPSF.rAxis j)
             * ((1 - (1/2 - exPSF.zAxis k) / (exPSF.zAxis (k + 1) - exPSF.zAxis k))
                  * exPSF.vals (j + 1) k
                + (1/2 - exPSF.zAxis k) / (exPSF.zAxis (k + 1) - exPSF.zAxis k)
                  * exPSF.vals (j + 1) (k + 1)))) :=
  ⟨exPSF_rmono, exPSF_zmono,
   numeric_psf_domain_policy exPSF 3 (1/2) exPSF_rmono exPSF_zmono⟩

end PyBroMo
